import Mathlib

/-!
Verification of the fork-choice subsystem of `blockchain-from-scratch`
(`src/c2_blockchain/p5_fork_choice.rs`).

The `Header` and `Block` types and the `hash` function live in modules of the
repository that are not part of the verified sources (`p4_batched_extrinsics.rs`
and the crate-level `hash` helper), so they are modelled from the spec: a header
is a record of four `u64` fields, a block is a header plus a body, and `hash` is
an arbitrary deterministic pure total function from headers to 64-bit digests,
passed as an explicit parameter `hashH` to every definition that hashes headers.

Machine integers (`u64`) are modelled as `Nat` with explicit reduction modulo
`2 ^ 64` at every operation where Rust release-mode arithmetic would wrap
(the work accumulation in `HeaviestChainRule::first_chain_is_better`, and the
`consensus_digest + i` update in `mine_extra_hard`).  `Nat` subtraction is
truncated, which coincides with Rust `u64` subtraction on the in-range operands
used here (`THRESHOLD - hash(header)` is only computed when
`hash(header) <= THRESHOLD`).

The mining loop `mine_extra_hard` is an unbounded search in Rust; it is modelled
with explicit fuel, returning `none` when the fuel runs out before a satisfying
digest is found.  `best_chain` indexes `candidate_chains[0]` and therefore
panics on an empty candidate list; the panic is modelled as `none`.
-/

namespace ForkChoiceSpec

/-- Modelled from the spec: the block-header record of
`p4_batched_extrinsics.rs` (not among the verified sources).  Fields
`parent_digest`, `height`, `extrinsics_root`, `consensus_digest`, each a `u64`;
equality is structural. -/
structure Header where
  parent_digest : Nat
  height : Nat
  extrinsics_root : Nat
  consensus_digest : Nat
deriving DecidableEq

/-- Modelled from the spec: a block of `p4_batched_extrinsics.rs` (not among
the verified sources) is a header together with a body of extrinsics. -/
structure Block where
  header : Header
  body : List Nat
deriving DecidableEq

/-- The modulus of 64-bit unsigned arithmetic. -/
def U64MOD : Nat := 2 ^ 64

/-- `const THRESHOLD: u64 = u64::max_value() / 100;` -/
def THRESHOLD : Nat := (2 ^ 64 - 1) / 100

/-- The per-header work contribution used by `HeaviestChainRule`:
`if hash(header) > THRESHOLD { 0 } else { THRESHOLD - hash(header) }`. -/
def headerWork (hashH : Header → Nat) (h : Header) : Nat :=
  if hashH h > THRESHOLD then 0 else THRESHOLD - hashH h

/-- 64-bit accumulation of a list of `u64` values, as Rust release-mode
`.sum::<u64>()` performs it: a left fold whose every addition wraps
modulo `2 ^ 64`. -/
def sumU64 (l : List Nat) : Nat :=
  l.foldl (fun a b => (a + b) % U64MOD) 0

namespace LongestChainRule

/-- `LongestChainRule::first_chain_is_better`: `chain_1.len() >= chain_2.len()`. -/
def first_chain_is_better (chain_1 chain_2 : List Header) : Bool :=
  decide (chain_1.length ≥ chain_2.length)

end LongestChainRule

namespace HeaviestChainRule

/-- `HeaviestChainRule::first_chain_is_better`: sum each chain's per-header
work into a `u64` accumulator and compare strictly. -/
def first_chain_is_better (hashH : Header → Nat) (chain_1 chain_2 : List Header) : Bool :=
  let work_1 : Nat := sumU64 (chain_1.map (headerWork hashH))
  let work_2 : Nat := sumU64 (chain_2.map (headerWork hashH))
  decide (work_1 > work_2)

end HeaviestChainRule

namespace MostBlocksWithEvenHash

/-- `MostBlocksWithEvenHash::first_chain_is_better`: count the headers whose
hash is even in each chain and compare strictly. -/
def first_chain_is_better (hashH : Header → Nat) (chain_1 chain_2 : List Header) : Bool :=
  let num_chain_1 := (chain_1.filter (fun header => hashH header % 2 == 0)).length
  let num_chain_2 := (chain_2.filter (fun header => hashH header % 2 == 0)).length
  decide (num_chain_1 > num_chain_2)

end MostBlocksWithEvenHash

/-- One step of the `best_chain` reduction: replace the running winner by the
candidate iff `first_chain_is_better(candidate, winner)`. -/
def chooseBetter (fcb : List Header → List Header → Bool) (best c2 : List Header) :
    List Header :=
  if fcb c2 best then c2 else best

/-- `ForkChoice::best_chain`, generic over the pairwise comparator: start from
`candidate_chains[0]` and fold the remaining candidates left to right.  The
Rust code indexes `candidate_chains[0]` and panics on an empty list; the panic
is modelled as `none`. -/
def best_chain (fcb : List Header → List Header → Bool)
    (candidate_chains : List (List Header)) : Option (List Header) :=
  match candidate_chains with
  | [] => none
  | c :: cs => some (cs.foldl (chooseBetter fcb) c)

/-- Overwrite a block's `consensus_digest`, leaving every other field alone. -/
def setDigest (b : Block) (d : Nat) : Block :=
  { b with header := { b.header with consensus_digest := d } }

theorem setDigest_digest (b : Block) (d : Nat) :
    (setDigest b d).header.consensus_digest = d := rfl

/-- The loop body of `mine_extra_hard`: at counter value `i`, execute
`block.header.consensus_digest = block.header.consensus_digest + i` (wrapping
`u64` addition), return the block if its header hashes below the threshold,
otherwise continue with counter `i + 1` (also a wrapping `u64` increment).
`fuel` bounds the number of iterations of the otherwise unbounded Rust loop;
exhausted fuel is `none`. -/
def mineLoop (hashH : Header → Nat) (threshold : Nat) :
    Nat → Block → Nat → Option Block
  | 0, _, _ => none
  | fuel + 1, b, i =>
    let b2 := setDigest b ((b.header.consensus_digest + i) % U64MOD)
    if hashH b2.header < threshold then some b2
    else mineLoop hashH threshold fuel b2 ((i + 1) % U64MOD)

/-- `mine_extra_hard(block, threshold)`: run the mining loop with the counter
starting at 1, for at most `fuel` iterations. -/
def mine_extra_hard (hashH : Header → Nat) (fuel : Nat) (b : Block) (threshold : Nat) :
    Option Block :=
  mineLoop hashH threshold fuel b 1

theorem mine_extra_hard_def (hashH : Header → Nat) (fuel : Nat) (b : Block)
    (threshold : Nat) :
    mine_extra_hard hashH fuel b threshold = mineLoop hashH threshold fuel b 1 := rfl

/-- The spec's work accounting read literally: the total work of a chain is the
exact (unbounded) sum of the per-header contributions, with no 64-bit
reduction.  Stated separately from `sumU64` so the two accumulations can be
compared. -/
def specTotalWork (hashH : Header → Nat) (c : List Header) : Nat :=
  (c.map (headerWork hashH)).sum

/-- Modelled from the spec: the mining search as §4.3 of the spec describes it,
`consensus_digest = original_digest + counter` at each iteration (the counter
itself, not a running accumulation), rehash, stop when the hash is below the
threshold.  `d0` is the digest the header had at entry. -/
def mineSpecLoop (hashH : Header → Nat) (threshold d0 : Nat) :
    Nat → Block → Nat → Option Block
  | 0, _, _ => none
  | fuel + 1, b, k =>
    let b2 := setDigest b ((d0 + k) % U64MOD)
    if hashH b2.header < threshold then some b2
    else mineSpecLoop hashH threshold d0 fuel b2 (k + 1)

/-- Modelled from the spec: `mine_to_threshold(header, threshold)` with the
digest schedule of §4.3 (original digest plus counter), counter starting at 1. -/
def mine_to_threshold_spec (hashH : Header → Nat) (fuel : Nat) (b : Block)
    (threshold : Nat) : Option Block :=
  mineSpecLoop hashH threshold b.header.consensus_digest fuel b 1

/-! ### Concrete fixtures used by witnesses and counterexamples -/

/-- A concrete header. -/
def hdr0 : Header := ⟨0, 0, 0, 0⟩

/-- A second concrete header of a different height. -/
def hdr1 : Header := ⟨0, 1, 0, 0⟩

/-- A concrete block whose digest is zero. -/
def blockZero : Block := ⟨hdr0, []⟩

/-- A concrete block with distinct values in every field. -/
def blockMisc : Block := ⟨⟨1, 2, 3, 4⟩, [7]⟩

/-- A hash oracle mapping every header to 0 (deterministic, pure, total, as
the spec requires of the external hash; the hash function itself is not among
the verified sources). -/
def hashZero : Header → Nat := fun _ => 0

/-- A hash oracle that is below threshold 1 exactly on digests 2 and 3. -/
def hashTwoThree : Header → Nat := fun h =>
  if h.consensus_digest = 2 ∨ h.consensus_digest = 3 then 0 else 1

/-- A hash oracle that is below threshold 1 exactly on digest 0. -/
def hashOnlyZero : Header → Nat := fun h =>
  if h.consensus_digest = 0 then 0 else 1

/-- A chain of `n` headers with parent digest 0 (which is the `hashZero` digest
of every header, so the chain satisfies the parent-link invariant under that
oracle) and consecutive heights. -/
def mkChain (n : Nat) : List Header :=
  (List.range n).map (fun i => ⟨0, i, 0, 0⟩)

/-! ### Helper lemmas -/

/-- 64-bit accumulation equals the exact sum reduced modulo `2 ^ 64`: the fold
of wrapping additions computes the wrapped value of the whole sum. -/
theorem foldl_add_mod (l : List Nat) :
    ∀ a : Nat, l.foldl (fun x y => (x + y) % U64MOD) (a % U64MOD) =
      (a + l.sum) % U64MOD := by
  induction l with
  | nil => intro a; simp
  | cons b l ih =>
    intro a
    simp only [List.foldl_cons, List.sum_cons]
    have h1 : (a % U64MOD + b) % U64MOD = (a + b) % U64MOD := by
      conv_rhs => rw [Nat.add_mod]
      rw [Nat.add_mod (a % U64MOD) b, Nat.mod_mod_of_dvd]
      exact dvd_refl _
    rw [h1, ih (a + b), Nat.add_assoc]

/-- `sumU64` is the exact sum reduced modulo `2 ^ 64`. -/
theorem sumU64_eq_sum_mod (l : List Nat) : sumU64 l = l.sum % U64MOD := by
  have h := foldl_add_mod l 0
  simpa [sumU64] using h

/-- The `best_chain` fold always returns one of the chains it was given. -/
theorem foldl_chooseBetter_mem (fcb : List Header → List Header → Bool) :
    ∀ (cs : List (List Header)) (a : List Header),
      cs.foldl (chooseBetter fcb) a ∈ a :: cs := by
  intro cs
  induction cs with
  | nil => intro a; simp
  | cons c cs ih =>
    intro a
    simp only [List.foldl_cons]
    have h := ih (chooseBetter fcb a c)
    rcases List.mem_cons.mp h with h1 | h2
    · rw [h1]
      unfold chooseBetter
      by_cases hc : fcb c a = true
      · simp [hc]
      · simp [hc]
    · simp [List.mem_cons, h2]

/-- Under `LongestChainRule` the `best_chain` fold returns a chain at least as
long as every candidate. -/
theorem length_le_foldl_longest :
    ∀ (cs : List (List Header)) (a x : List Header), x ∈ a :: cs →
      x.length ≤ (cs.foldl (chooseBetter LongestChainRule.first_chain_is_better) a).length := by
  intro cs
  induction cs with
  | nil =>
    intro a x hx
    rw [List.mem_singleton.mp hx]
    simp [List.foldl_nil]
  | cons c cs ih =>
    intro a x hx
    simp only [List.foldl_cons]
    have ha : a.length ≤ (chooseBetter LongestChainRule.first_chain_is_better a c).length := by
      unfold chooseBetter LongestChainRule.first_chain_is_better
      by_cases hc : c.length ≥ a.length
      · simp [hc]
      · simp [hc]
    have hcl : c.length ≤ (chooseBetter LongestChainRule.first_chain_is_better a c).length := by
      unfold chooseBetter LongestChainRule.first_chain_is_better
      by_cases hc : c.length ≥ a.length
      · simp [hc]
      · simp [hc]; omega
    have hw := ih (chooseBetter LongestChainRule.first_chain_is_better a c)
        (chooseBetter LongestChainRule.first_chain_is_better a c) (List.mem_cons_self _ _)
    rcases List.mem_cons.mp hx with h1 | hx1
    · rw [h1]; exact le_trans ha hw
    · rcases List.mem_cons.mp hx1 with h2 | h3
      · rw [h2]; exact le_trans hcl hw
      · exact ih _ x (List.mem_cons_of_mem _ h3)

/-- Under `LongestChainRule` the `best_chain` fold returns the LAST chain of
maximal length: the input list decomposes around the result, and every chain
strictly after it is strictly shorter. -/
theorem foldl_longest_last_max :
    ∀ (cs : List (List Header)) (a : List Header),
      ∃ p s, a :: cs = p ++ (cs.foldl (chooseBetter LongestChainRule.first_chain_is_better) a) :: s ∧
        ∀ x ∈ s, x.length <
          (cs.foldl (chooseBetter LongestChainRule.first_chain_is_better) a).length := by
  intro cs
  induction cs with
  | nil =>
    intro a
    exact ⟨[], [], by simp, by simp⟩
  | cons c cs ih =>
    intro a
    simp only [List.foldl_cons]
    by_cases hc : LongestChainRule.first_chain_is_better c a = true
    · have hcb : chooseBetter LongestChainRule.first_chain_is_better a c = c := by
        unfold chooseBetter; simp [hc]
      obtain ⟨p, s, heq, hlt⟩ := ih c
      refine ⟨a :: p, s, ?_, ?_⟩
      · rw [hcb, List.cons_append, ← heq]
      · rw [hcb]; exact hlt
    · have hcb : chooseBetter LongestChainRule.first_chain_is_better a c = a := by
        unfold chooseBetter; simp [hc]
      have hlen : c.length < a.length := by
        unfold LongestChainRule.first_chain_is_better at hc
        simp at hc
        omega
      obtain ⟨p, s, heq, hlt⟩ := ih a
      rw [hcb]
      cases p with
      | nil =>
        simp only [List.nil_append] at heq
        have ha : a = cs.foldl (chooseBetter LongestChainRule.first_chain_is_better) a :=
          (List.cons_eq_cons.mp heq).1
        have hs : cs = s := (List.cons_eq_cons.mp heq).2
        refine ⟨[], c :: cs, by rw [← ha]; rfl, ?_⟩
        intro x hx
        rcases List.mem_cons.mp hx with h1 | h2
        · rw [h1, ← ha]; exact hlen
        · exact hlt x (hs ▸ h2)
      | cons q p =>
        simp only [List.cons_append] at heq
        have ha : a = q := (List.cons_eq_cons.mp heq).1
        have hcs : cs = p ++ (cs.foldl (chooseBetter LongestChainRule.first_chain_is_better) a) :: s :=
          (List.cons_eq_cons.mp heq).2
        refine ⟨a :: c :: p, s, ?_, hlt⟩
        simp only [List.cons_append]
        rw [← hcs]

/-- The triangular numbers: `tri k = 1 + 2 + ... + k`, the total amount the
mining loop has added to the digest after `k` iterations. -/
def tri : Nat → Nat
  | 0 => 0
  | k + 1 => tri k + (k + 1)

theorem tri_two_mul : ∀ k : Nat, 2 * tri k = k * (k + 1) := by
  intro k
  induction k with
  | zero => rfl
  | succ n ih => simp only [tri]; ring_nf; ring_nf at ih; omega

/-- Whatever the mining loop returns hashes below the threshold and agrees
with the starting block on every field except the consensus digest. -/
theorem mineLoop_frame (hashH : Header → Nat) (T : Nat) :
    ∀ (fuel : Nat) (b : Block) (i : Nat) (b2 : Block),
      mineLoop hashH T fuel b i = some b2 →
      hashH b2.header < T ∧
      b2.header.parent_digest = b.header.parent_digest ∧
      b2.header.height = b.header.height ∧
      b2.header.extrinsics_root = b.header.extrinsics_root ∧
      b2.body = b.body := by
  intro fuel
  induction fuel with
  | zero => intro b i b2 h; simp [mineLoop] at h
  | succ n ih =>
    intro b i b2 h
    simp only [mineLoop] at h
    by_cases hc : hashH (setDigest b ((b.header.consensus_digest + i) % U64MOD)).header < T
    · rw [if_pos hc] at h
      have hb : b2 = setDigest b ((b.header.consensus_digest + i) % U64MOD) :=
        (Option.some_inj.mp h).symm
      rw [hb]
      exact ⟨hb ▸ hc, rfl, rfl, rfl, rfl⟩
    · rw [if_neg hc] at h
      have := ih _ _ _ h
      simpa [setDigest] using this

/-- The digest-evolution invariant of the mining loop, stated from an arbitrary
iteration index `m`: starting at the block whose digest is
`d0 + tri m (mod 2^64)` with loop counter `(m+1) mod 2^64`, a successful run
stops at the first `k > m` whose digest `d0 + tri k (mod 2^64)` hashes below
the threshold, and returns the block with exactly that digest. -/
theorem mineLoop_digest_spec (hashH : Header → Nat) (T : Nat) :
    ∀ (fuel m : Nat) (b0 b2 : Block),
      mineLoop hashH T fuel
        (setDigest b0 ((b0.header.consensus_digest + tri m) % U64MOD))
        ((m + 1) % U64MOD) = some b2 →
      ∃ k, m < k ∧ k ≤ m + fuel ∧
        b2 = setDigest b0 ((b0.header.consensus_digest + tri k) % U64MOD) ∧
        hashH b2.header < T ∧
        ∀ j, m < j → j < k →
          ¬ hashH (setDigest b0 ((b0.header.consensus_digest + tri j) % U64MOD)).header < T := by
  intro fuel
  induction fuel with
  | zero => intro m b0 b2 h; simp [mineLoop] at h
  | succ n ih =>
    intro m b0 b2 h
    simp only [mineLoop, setDigest] at h
    have hdig : ((b0.header.consensus_digest + tri m) % U64MOD + (m + 1) % U64MOD) % U64MOD =
        (b0.header.consensus_digest + tri (m + 1)) % U64MOD := by
      have h1 : b0.header.consensus_digest + tri (m + 1) =
          b0.header.consensus_digest + tri m + (m + 1) := by
        simp only [tri]; omega
      rw [h1]
      exact (Nat.add_mod _ _ _).symm
    rw [hdig] at h
    by_cases hc : hashH { b0.header with
        consensus_digest := (b0.header.consensus_digest + tri (m + 1)) % U64MOD } < T
    · rw [if_pos hc] at h
      have hb : b2 = setDigest b0 ((b0.header.consensus_digest + tri (m + 1)) % U64MOD) :=
        (Option.some_inj.mp h).symm
      refine ⟨m + 1, by omega, by omega, hb, ?_, ?_⟩
      · rw [hb]; exact hc
      · intro j hj1 hj2; omega
    · rw [if_neg hc] at h
      have hcnt : ((m + 1) % U64MOD + 1) % U64MOD = (m + 1 + 1) % U64MOD := by
        conv_rhs => rw [Nat.add_mod]
        rw [Nat.mod_eq_of_lt (show (1 : Nat) < U64MOD by norm_num [U64MOD])]
      rw [hcnt] at h
      have h2 := ih (m + 1) b0 b2 (by simpa [setDigest] using h)
      obtain ⟨k, hk1, hk2, hb, hhash, hskip⟩ := h2
      refine ⟨k, by omega, by omega, hb, hhash, ?_⟩
      intro j hj1 hj2
      by_cases hjm : j = m + 1
      · rw [hjm]; simpa [setDigest] using hc
      · exact hskip j (by omega) hj2

/-- The constructive counterpart of `mineLoop_digest_spec`: if `k` is the first
index past `m` whose digest hashes below the threshold and there is enough
fuel, the loop returns exactly the block with digest `d0 + tri k (mod 2^64)`. -/
theorem mineLoop_runs_to (hashH : Header → Nat) (T : Nat) :
    ∀ (fuel m k : Nat) (b0 : Block), m < k → k ≤ m + fuel →
      hashH (setDigest b0 ((b0.header.consensus_digest + tri k) % U64MOD)).header < T →
      (∀ j, m < j → j < k →
        ¬ hashH (setDigest b0 ((b0.header.consensus_digest + tri j) % U64MOD)).header < T) →
      mineLoop hashH T fuel
        (setDigest b0 ((b0.header.consensus_digest + tri m) % U64MOD))
        ((m + 1) % U64MOD) =
        some (setDigest b0 ((b0.header.consensus_digest + tri k) % U64MOD)) := by
  intro fuel
  induction fuel with
  | zero => intro m k b0 h1 h2; omega
  | succ n ih =>
    intro m k b0 h1 h2 hstop hskip
    simp only [mineLoop, setDigest]
    have hdig : ((b0.header.consensus_digest + tri m) % U64MOD + (m + 1) % U64MOD) % U64MOD =
        (b0.header.consensus_digest + tri (m + 1)) % U64MOD := by
      have hx : b0.header.consensus_digest + tri (m + 1) =
          b0.header.consensus_digest + tri m + (m + 1) := by
        simp only [tri]; omega
      rw [hx]
      exact (Nat.add_mod _ _ _).symm
    rw [hdig]
    by_cases hk : k = m + 1
    · rw [← hk]
      have hc := hstop
      simp only [setDigest] at hc
      rw [if_pos (hk ▸ hc)]
    · have hnot : ¬ hashH { b0.header with
          consensus_digest := (b0.header.consensus_digest + tri (m + 1)) % U64MOD } < T := by
        have := hskip (m + 1) (by omega) (by omega)
        simpa [setDigest] using this
      rw [if_neg hnot]
      have hcnt : ((m + 1) % U64MOD + 1) % U64MOD = (m + 1 + 1) % U64MOD := by
        conv_rhs => rw [Nat.add_mod]
        rw [Nat.mod_eq_of_lt (show (1 : Nat) < U64MOD by norm_num [U64MOD])]
      rw [hcnt]
      have hrec := ih (m + 1) k b0 (by omega) (by omega) hstop
        (fun j hj1 hj2 => hskip j (by omega) hj2)
      simpa [setDigest] using hrec

/-- Below `2 ^ 65 - 1` iterations the cumulative digest perturbation is never
a multiple of `2 ^ 64`: `tri j ≡ 0 (mod 2^64)` forces `2^65 ∣ j * (j + 1)`,
and since `j` and `j + 1` are coprime the whole power of two divides one of
them, putting `j` at `2 ^ 65 - 1` or beyond. -/
theorem tri_mod_ne_zero (j : Nat) (hj1 : 1 ≤ j) (hj2 : j < 2 ^ 65 - 1) :
    tri j % U64MOD ≠ 0 := by
  intro h0
  have hdvd : U64MOD ∣ tri j := Nat.dvd_of_mod_eq_zero h0
  obtain ⟨c, hc⟩ := hdvd
  have h2d : (2 ^ 65 : Nat) ∣ j * (j + 1) := by
    refine ⟨c, ?_⟩
    rw [← tri_two_mul j, hc, U64MOD]
    ring
  rcases Nat.even_or_odd j with he | ho
  · obtain ⟨r, hr⟩ := he
    have hnd : ¬ (2 : Nat) ∣ (j + 1) := by
      intro hd
      obtain ⟨m, hm⟩ := hd
      omega
    have hcop : Nat.Coprime (2 ^ 65) (j + 1) :=
      Nat.Coprime.pow_left _ ((Nat.prime_two.coprime_iff_not_dvd).mpr hnd)
    have hj : (2 ^ 65 : Nat) ∣ j := hcop.dvd_of_dvd_mul_right h2d
    have := Nat.le_of_dvd (by omega) hj
    have hpow : (2 : Nat) ^ 65 = 36893488147419103232 := by norm_num
    omega
  · have hnd : ¬ (2 : Nat) ∣ j := by
      intro hd
      obtain ⟨m, hm⟩ := hd
      obtain ⟨r, hr⟩ := ho
      omega
    have hcop : Nat.Coprime (2 ^ 65) j :=
      Nat.Coprime.pow_left _ ((Nat.prime_two.coprime_iff_not_dvd).mpr hnd)
    have hj : (2 ^ 65 : Nat) ∣ (j + 1) := hcop.dvd_of_dvd_mul_left h2d
    have := Nat.le_of_dvd (by omega) hj
    have hpow : (2 : Nat) ^ 65 = 36893488147419103232 := by norm_num
    omega

/-- At exactly `2 ^ 65 - 1` iterations the cumulative perturbation is a
multiple of `2 ^ 64`, so the digest wraps back to its starting value. -/
theorem tri_big_mod_zero : tri (2 ^ 65 - 1) % U64MOD = 0 := by
  have h2 : 2 * tri (2 ^ 65 - 1) = 2 * ((2 ^ 65 - 1) * 2 ^ 64) := by
    rw [tri_two_mul]
    have : (2 ^ 65 - 1 : Nat) + 1 = 2 ^ 65 := by norm_num
    rw [this]
    ring
  have h3 : tri (2 ^ 65 - 1) = (2 ^ 65 - 1) * 2 ^ 64 :=
    Nat.eq_of_mul_eq_mul_left (by norm_num) h2
  rw [h3, U64MOD]
  exact Nat.mul_mod_left _ _

/-! ### Claim theorems -/

set_option maxRecDepth 10000

/-- Claim C3: `LongestChainRule.first_chain_is_better(c1, c2)` returns true iff
`len(c1) >= len(c2)`; in particular on equal lengths both directions return
true, and the comparator is reflexive. -/
theorem longest_rule_nonstrict (c1 c2 : List Header) :
    (LongestChainRule.first_chain_is_better c1 c2 = true ↔ c2.length ≤ c1.length) ∧
    (c1.length = c2.length →
      LongestChainRule.first_chain_is_better c1 c2 = true ∧
      LongestChainRule.first_chain_is_better c2 c1 = true) ∧
    LongestChainRule.first_chain_is_better c1 c1 = true := by
  refine ⟨?_, ?_, ?_⟩
  · simp [LongestChainRule.first_chain_is_better, ge_iff_le]
  · intro h
    constructor <;> simp [LongestChainRule.first_chain_is_better, h, ge_iff_le]
  · simp [LongestChainRule.first_chain_is_better]

/-- Witness for C3: two singleton chains of equal length; both comparison
directions return true. -/
theorem longest_rule_nonstrict_witness :
    LongestChainRule.first_chain_is_better [hdr0] [hdr1] = true ∧
    LongestChainRule.first_chain_is_better [hdr1] [hdr0] = true :=
  (longest_rule_nonstrict [hdr0] [hdr1]).2.1 (by decide)

/-- Claim C4: `MostBlocksWithEvenHash.first_chain_is_better(c1, c2)` returns
true iff the number of headers of `c1` with even hash strictly exceeds that of
`c2`, and returns false on an exact tie of the counts. -/
theorem most_even_rule_strict (hashH : Header → Nat) (c1 c2 : List Header) :
    (MostBlocksWithEvenHash.first_chain_is_better hashH c1 c2 = true ↔
      c2.countP (fun h => decide (hashH h % 2 = 0)) <
        c1.countP (fun h => decide (hashH h % 2 = 0))) ∧
    (c1.countP (fun h => decide (hashH h % 2 = 0)) =
        c2.countP (fun h => decide (hashH h % 2 = 0)) →
      MostBlocksWithEvenHash.first_chain_is_better hashH c1 c2 = false) := by
  have hfun : (fun header : Header => hashH header % 2 == 0) =
      (fun h => decide (hashH h % 2 = 0)) := by
    funext h
    by_cases hc : hashH h % 2 = 0 <;> simp [hc]
  have hpred : ∀ c : List Header,
      (c.filter (fun header => hashH header % 2 == 0)).length =
        c.countP (fun h => decide (hashH h % 2 = 0)) := by
    intro c
    rw [List.countP_eq_length_filter, hfun]
  constructor
  · simp [MostBlocksWithEvenHash.first_chain_is_better, hpred]
  · intro h
    simp [MostBlocksWithEvenHash.first_chain_is_better, hpred, h]

/-- Witness for C4: under the all-zero hash every header is even; two singleton
chains tie at one even header each and the comparator returns false. -/
theorem most_even_rule_strict_witness :
    MostBlocksWithEvenHash.first_chain_is_better hashZero [hdr0] [hdr1] = false :=
  (most_even_rule_strict hashZero [hdr0] [hdr1]).2 (by decide)

/-- Claim C8 (amended): `best_chain` of an empty candidate list fails (the Rust
code panics indexing `candidate_chains[0]`, modelled as `none`), but
`first_chain_is_better` accepts empty chains and returns an ordinary boolean
verdict rather than an `InvalidInput` error: `LongestChainRule` returns true on
two empty chains and the two strict rules return false. -/
theorem empty_input_behavior (fcb : List Header → List Header → Bool)
    (hashH : Header → Nat) :
    best_chain fcb [] = none ∧
    LongestChainRule.first_chain_is_better [] [] = true ∧
    HeaviestChainRule.first_chain_is_better hashH [] [] = false ∧
    MostBlocksWithEvenHash.first_chain_is_better hashH [] [] = false :=
  ⟨rfl, rfl, rfl, rfl⟩

/-- Counterexample for C8 as stated: called on two empty chains,
`LongestChainRule::first_chain_is_better` does not fail fast with an
`InvalidInput` error — it returns the ordinary boolean verdict `true`
(`0 >= 0`). -/
theorem empty_chain_verdict_counterexample :
    LongestChainRule.first_chain_is_better [] [] = true := rfl

/-- Claim C9: whatever the policy, `best_chain` of a non-empty candidate list
returns one of the candidate chains. -/
theorem best_chain_mem (fcb : List Header → List Header → Bool)
    (l : List (List Header)) (r : List Header)
    (h : best_chain fcb l = some r) : r ∈ l := by
  cases l with
  | nil => simp [best_chain] at h
  | cons c cs =>
    simp only [best_chain, Option.some_inj] at h
    rw [← h]
    exact foldl_chooseBetter_mem fcb cs c

/-- Witness for C9: with the longest-chain policy on `[[], [hdr0]]` the winner
`[hdr0]` is an element of the candidate list. -/
theorem best_chain_mem_witness : ([hdr0] : List Header) ∈ [([] : List Header), [hdr0]] :=
  best_chain_mem LongestChainRule.first_chain_is_better [[], [hdr0]] [hdr0] rfl

/-- Claim C2: for every policy, `best_chain` of a non-empty list is the
left-to-right reduction started at the head that replaces the winner exactly
when `first_chain_is_better(candidate, winner)`; consequently, under
`LongestChainRule`, the winner has maximal length and every candidate strictly
after it in the list is strictly shorter (so distinct lengths give the unique
maximum and ties give the last maximal candidate). -/
theorem best_chain_reduction (fcb : List Header → List Header → Bool)
    (c : List Header) (cs : List (List Header)) :
    best_chain fcb (c :: cs) = some (cs.foldl (chooseBetter fcb) c) ∧
    ∀ r, best_chain LongestChainRule.first_chain_is_better (c :: cs) = some r →
      (∀ x ∈ c :: cs, x.length ≤ r.length) ∧
      ∃ p s, c :: cs = p ++ r :: s ∧ ∀ x ∈ s, x.length < r.length := by
  refine ⟨rfl, ?_⟩
  intro r hr
  simp only [best_chain, Option.some_inj] at hr
  rw [← hr]
  exact ⟨fun x hx => length_le_foldl_longest cs c x hx, foldl_longest_last_max cs c⟩

/-- Witness for C2: on candidates `[[], [hdr0]]` with the longest-chain policy
the winner `[hdr0]` has maximal length and nothing follows it. -/
theorem best_chain_reduction_witness :
    (∀ x ∈ ([[], [hdr0]] : List (List Header)), x.length ≤ ([hdr0] : List Header).length) ∧
    ∃ p s, ([[], [hdr0]] : List (List Header)) = p ++ [hdr0] :: s ∧
      ∀ x ∈ s, x.length < ([hdr0] : List Header).length :=
  (best_chain_reduction LongestChainRule.first_chain_is_better [] [[hdr0]]).2 [hdr0] rfl

/-- Claim C1 (amended): `HeaviestChainRule::first_chain_is_better` compares the
work sums accumulated in wrapping 64-bit arithmetic; whenever both exact totals
fit in a `u64` it returns true iff the exact total work of `chain_1` strictly
exceeds that of `chain_2`, and in particular returns false on an exact tie. -/
theorem heaviest_rule_exact_work (hashH : Header → Nat) (c1 c2 : List Header)
    (h1 : specTotalWork hashH c1 < U64MOD) (h2 : specTotalWork hashH c2 < U64MOD) :
    (HeaviestChainRule.first_chain_is_better hashH c1 c2 = true ↔
      specTotalWork hashH c2 < specTotalWork hashH c1) ∧
    (specTotalWork hashH c1 = specTotalWork hashH c2 →
      HeaviestChainRule.first_chain_is_better hashH c1 c2 = false) := by
  have e1 : sumU64 (c1.map (headerWork hashH)) = specTotalWork hashH c1 := by
    rw [sumU64_eq_sum_mod]
    exact Nat.mod_eq_of_lt h1
  have e2 : sumU64 (c2.map (headerWork hashH)) = specTotalWork hashH c2 := by
    rw [sumU64_eq_sum_mod]
    exact Nat.mod_eq_of_lt h2
  constructor
  · simp [HeaviestChainRule.first_chain_is_better, e1, e2]
  · intro h
    simp [HeaviestChainRule.first_chain_is_better, e1, e2, h]

/-- Witness for C1: a one-header chain against the empty chain under the
all-zero hash; both totals fit in a `u64` and the verdict matches the exact
comparison. -/
theorem heaviest_rule_exact_work_witness :
    (HeaviestChainRule.first_chain_is_better hashZero [hdr0] [] = true ↔
      specTotalWork hashZero [] < specTotalWork hashZero [hdr0]) ∧
    (specTotalWork hashZero [hdr0] = specTotalWork hashZero [] →
      HeaviestChainRule.first_chain_is_better hashZero [hdr0] [] = false) :=
  heaviest_rule_exact_work hashZero [hdr0] [] (by decide) (by decide)

/-- Counterexample for C1 as stated: under the all-zero hash every header of
`mkChain n` contributes `THRESHOLD` work, so the 101-header chain has strictly
more exact total work than the 100-header chain; yet the comparator returns
false, because the 101-header total exceeds `u64::MAX` and its 64-bit
accumulation wraps to a value below the (non-wrapping) 100-header total. -/
theorem heaviest_rule_wrap_counterexample :
    specTotalWork hashZero (mkChain 100) < specTotalWork hashZero (mkChain 101) ∧
    HeaviestChainRule.first_chain_is_better hashZero (mkChain 101) (mkChain 100) = false := by
  constructor
  · decide
  · decide

/-- Claim C7 (amended): the work accumulation observed by
`HeaviestChainRule::first_chain_is_better` is neither saturating nor widened:
it is the exact per-header work sum reduced modulo `2 ^ 64`, i.e. plain
wrapping `u64` accumulation (Rust release-mode `.sum::<u64>()`; a debug build
would panic on the same input instead). -/
theorem heaviest_rule_wrapping_accumulation (hashH : Header → Nat) (c : List Header) :
    sumU64 (c.map (headerWork hashH)) = specTotalWork hashH c % U64MOD :=
  sumU64_eq_sum_mod _

/-- Counterexample for C7 as stated: the 101-header all-zero-hash chain has
exact work above `u64::MAX`, and the accumulator the comparator sees is
strictly below `u64::MAX` (so it is not a saturating value and not a widened
value); it is exactly the mod-`2 ^ 64` wrapped sum. -/
theorem heaviest_rule_no_saturation_counterexample :
    2 ^ 64 - 1 < specTotalWork hashZero (mkChain 101) ∧
    sumU64 ((mkChain 101).map (headerWork hashZero)) < 2 ^ 64 - 1 ∧
    sumU64 ((mkChain 101).map (headerWork hashZero)) =
      specTotalWork hashZero (mkChain 101) % U64MOD := by
  refine ⟨by decide, by decide, by decide⟩

/-- Claim C5: whenever the mining utility returns, the returned block's header
hashes below the threshold, and every header field other than
`consensus_digest` — and the block body — is unchanged. -/
theorem mine_extra_hard_postcondition (hashH : Header → Nat) (fuel : Nat)
    (b : Block) (T : Nat) (b2 : Block)
    (h : mine_extra_hard hashH fuel b T = some b2) :
    hashH b2.header < T ∧
    b2.header.parent_digest = b.header.parent_digest ∧
    b2.header.height = b.header.height ∧
    b2.header.extrinsics_root = b.header.extrinsics_root ∧
    b2.body = b.body :=
  mineLoop_frame hashH T fuel b 1 b2 h

/-- Witness for C5: mining `blockMisc` to threshold 1 under the all-zero hash
returns after one iteration with only the digest changed (4 to 5). -/
theorem mine_extra_hard_postcondition_witness :
    hashZero (Block.mk ⟨1, 2, 3, 5⟩ [7]).header < 1 ∧
    (Block.mk ⟨1, 2, 3, 5⟩ [7]).header.parent_digest = blockMisc.header.parent_digest ∧
    (Block.mk ⟨1, 2, 3, 5⟩ [7]).header.height = blockMisc.header.height ∧
    (Block.mk ⟨1, 2, 3, 5⟩ [7]).header.extrinsics_root = blockMisc.header.extrinsics_root ∧
    (Block.mk ⟨1, 2, 3, 5⟩ [7]).body = blockMisc.body :=
  mine_extra_hard_postcondition hashZero 5 blockMisc 1 (Block.mk ⟨1, 2, 3, 5⟩ [7]) (by decide)

/-- Claim C6 (amended): each iteration of `mine_extra_hard` adds the current
counter value `i` to the digest and then increments the counter, so after `k`
iterations the digest is the original value plus `1 + 2 + ... + k = k(k+1)/2`
(mod `2 ^ 64`), not the original plus `k`; the header is rehashed after each
perturbation and the loop stops at the first `k` whose hash is below the
threshold. -/
theorem mine_extra_hard_digest_schedule (hashH : Header → Nat) (T fuel : Nat)
    (b b2 : Block) (hd : b.header.consensus_digest < U64MOD)
    (h : mine_extra_hard hashH fuel b T = some b2) :
    ∃ k, 1 ≤ k ∧ k ≤ fuel ∧
      b2 = setDigest b ((b.header.consensus_digest + tri k) % U64MOD) ∧
      hashH b2.header < T ∧
      ∀ j, 1 ≤ j → j < k →
        ¬ hashH (setDigest b ((b.header.consensus_digest + tri j) % U64MOD)).header < T := by
  have h0 : setDigest b ((b.header.consensus_digest + tri 0) % U64MOD) = b := by
    show setDigest b ((b.header.consensus_digest + 0) % U64MOD) = b
    rw [Nat.add_zero, Nat.mod_eq_of_lt hd]
    rfl
  have h1 : (0 + 1) % U64MOD = 1 := by
    rw [Nat.zero_add]
    exact Nat.mod_eq_of_lt (by norm_num [U64MOD])
  have haux := mineLoop_digest_spec hashH T fuel 0 b b2
  rw [h0, h1] at haux
  obtain ⟨k, hk1, hk2, hb, hh, hskip⟩ := haux h
  exact ⟨k, hk1, by omega, hb, hh, fun j hj1 hj2 => hskip j hj1 hj2⟩

/-- Witness for C6 (amended): under a hash that is good exactly on digests 2
and 3, mining `blockZero` to threshold 1 stops with digest `tri 2 = 3`. -/
theorem mine_extra_hard_digest_schedule_witness :
    ∃ k, 1 ≤ k ∧ k ≤ 10 ∧
      setDigest blockZero 3 =
        setDigest blockZero ((blockZero.header.consensus_digest + tri k) % U64MOD) ∧
      hashTwoThree (setDigest blockZero 3).header < 1 ∧
      ∀ j, 1 ≤ j → j < k →
        ¬ hashTwoThree
            (setDigest blockZero ((blockZero.header.consensus_digest + tri j) % U64MOD)).header <
          1 :=
  mine_extra_hard_digest_schedule hashTwoThree 1 10 blockZero (setDigest blockZero 3)
    (by decide) (by decide)

/-- Counterexample for C6 as stated: under the hash that is good exactly on
digests 2 and 3 and threshold 1, the code stops with digest 3 (schedule
1, 1+2, ...) while the search the claim describes (original digest plus
counter: 1, 2, ...) stops with digest 2 — the two differ at this input. -/
theorem mine_digest_schedule_counterexample :
    (mine_extra_hard hashTwoThree 10 blockZero 1).map
        (fun b => b.header.consensus_digest) = some 3 ∧
    (mine_to_threshold_spec hashTwoThree 10 blockZero 1).map
        (fun b => b.header.consensus_digest) = some 2 ∧
    (3 : Nat) ≠ 2 := by
  refine ⟨by decide, by decide, by decide⟩

/-- Claim C10 (amended): the mining loop perturbs the digest before its first
exit check, and the digest it returns — entry digest plus `k(k+1)/2` mod
`2 ^ 64` after `k` iterations — differs from the entry digest whenever the
search terminates in fewer than `2 ^ 65 - 1` iterations; at exactly
`2 ^ 65 - 1` iterations the cumulative perturbation is a multiple of `2 ^ 64`
and the digest wraps back to its entry value. -/
theorem mine_extra_hard_digest_changes (hashH : Header → Nat) (T fuel : Nat)
    (b b2 : Block) (hd : b.header.consensus_digest < U64MOD)
    (hfuel : fuel < 2 ^ 65 - 1)
    (h : mine_extra_hard hashH fuel b T = some b2) :
    b2.header.consensus_digest ≠ b.header.consensus_digest := by
  obtain ⟨k, hk1, hk2, hb, _, _⟩ := mine_extra_hard_digest_schedule hashH T fuel b b2 hd h
  rw [hb]
  show (b.header.consensus_digest + tri k) % U64MOD ≠ b.header.consensus_digest
  intro heq
  have htri : tri k % U64MOD = 0 := by
    have hM : U64MOD = 18446744073709551616 := by norm_num [U64MOD]
    rw [hM] at heq hd ⊢
    omega
  have hp : (2 : Nat) ^ 65 - 1 = 36893488147419103231 := by norm_num
  refine tri_mod_ne_zero k hk1 ?_ htri
  rw [hp]
  rw [hp] at hfuel
  omega

/-- Witness for C10 (amended): mining `blockMisc` (digest 4) to threshold 1
under the all-zero hash changes the digest (to 5). -/
theorem mine_extra_hard_digest_changes_witness :
    (Block.mk ⟨1, 2, 3, 5⟩ [7]).header.consensus_digest ≠ blockMisc.header.consensus_digest :=
  mine_extra_hard_digest_changes hashZero 1 5 blockMisc (Block.mk ⟨1, 2, 3, 5⟩ [7])
    (by decide) (by decide) (by decide)

/-- Counterexample for C10 as stated: under the hash that is good exactly on
digest 0, mining `blockZero` (entry digest 0) to threshold 1 runs
`2 ^ 65 - 1` iterations — at that point the cumulative perturbation
`tri (2 ^ 65 - 1)` is a multiple of `2 ^ 64` — and returns the entry block
itself: the returned `consensus_digest` is bit-for-bit identical to the one at
entry. -/
theorem mine_digest_unchanged_counterexample :
    mine_extra_hard hashOnlyZero (2 ^ 65) blockZero 1 = some blockZero := by
  have hz : blockZero.header.consensus_digest = 0 := rfl
  have hstop : hashOnlyZero
      (setDigest blockZero
        ((blockZero.header.consensus_digest + tri (2 ^ 65 - 1)) % U64MOD)).header < 1 := by
    rw [hz, Nat.zero_add, tri_big_mod_zero]
    decide
  have hskip : ∀ j, 0 < j → j < 2 ^ 65 - 1 →
      ¬ hashOnlyZero
          (setDigest blockZero
            ((blockZero.header.consensus_digest + tri j) % U64MOD)).header < 1 := by
    intro j hj1 hj2
    rw [hz, Nat.zero_add]
    have hne := tri_mod_ne_zero j hj1 hj2
    simp [hashOnlyZero, setDigest, hne]
  have hrun := mineLoop_runs_to hashOnlyZero 1 (2 ^ 65) 0 (2 ^ 65 - 1) blockZero
    (by norm_num) (by norm_num) hstop hskip
  have h0 : setDigest blockZero ((blockZero.header.consensus_digest + tri 0) % U64MOD) =
      blockZero := by decide
  have h2 : setDigest blockZero
      ((blockZero.header.consensus_digest + tri (2 ^ 65 - 1)) % U64MOD) = blockZero := by
    rw [hz, Nat.zero_add, tri_big_mod_zero]
    rfl
  have h1 : (0 + 1) % U64MOD = 1 := by decide
  rw [h0, h1, h2] at hrun
  exact hrun

end ForkChoiceSpec
